import Mathlib

/-!
Shallow embedding of `copy-env-keys-to-env-example` (src/index.js).

File contents and lines are modelled as `List Char` (JavaScript strings are
sequences of code units; all inputs relevant here are plain text).  Each
definition below mirrors one function of `src/index.js`; the JS source line
numbers are noted in the doc comments.
-/

namespace CopyEnvKeys

/-- Character class of the JavaScript regex `\s` (and of `String.prototype.trim`):
space, tab, vertical tab, form feed, line terminators, and the Unicode
space separators recognised by ECMAScript. -/
def isJsSpace (c : Char) : Bool :=
  let n := c.toNat
  n == 0x09 || n == 0x0A || n == 0x0B || n == 0x0C || n == 0x0D || n == 0x20 ||
  n == 0xA0 || n == 0x1680 || (0x2000 ≤ n && n ≤ 0x200A) || n == 0x2028 ||
  n == 0x2029 || n == 0x202F || n == 0x205F || n == 0x3000 || n == 0xFEFF

/-- JS `isBlankLine` (index.js line 62): `/^\s*$/.test(line)`. -/
def isBlankLine (l : List Char) : Bool := l.all isJsSpace

/-- JS `isCommentLine` (index.js line 66): `/^\s*[#]/.test(line)`. -/
def isCommentLine : List Char → Bool
  | [] => false
  | c :: r => if c = '#' then true else if isJsSpace c then isCommentLine r else false

/-- The literal word `export`. -/
def exportWord : List Char := ['e', 'x', 'p', 'o', 'r', 't']

/-- JS `stripExportPrefix` (index.js line 70): `line.replace(/^\s*export\s+/, "")`.
The regex matches (at the start of the line) a maximal run of whitespace, the
literal `export`, then at least one whitespace character (the following
whitespace run is consumed greedily); on a match that prefix is removed,
otherwise the line is returned unchanged. -/
def stripExportPrefix (l : List Char) : List Char :=
  let a := l.dropWhile isJsSpace
  if a.take 6 = exportWord then
    match a.drop 6 with
    | [] => l
    | c :: r => if isJsSpace c then r.dropWhile isJsSpace else l
  else l

/-- JS `findUnquotedEqualsIndex` (index.js line 74), presented as a splitter:
scans left to right with two mutually exclusive quote flags and, at the first
`=` met while both flags are off, returns the slices before and after that
`=` (the JS function returns the index; the slices taken by its caller
`parseAssignment` are exactly the two components returned here). -/
def findUnquotedEquals : List Char → Bool → Bool → Option (List Char × List Char)
  | [], _, _ => none
  | c :: rest, inS, inD =>
    if c = '\'' && !inD then
      (findUnquotedEquals rest (!inS) inD).map (fun p => (c :: p.1, p.2))
    else if c = '"' && !inS then
      (findUnquotedEquals rest inS (!inD)).map (fun p => (c :: p.1, p.2))
    else if c = '=' && !inS && !inD then some ([], rest)
    else (findUnquotedEquals rest inS inD).map (fun p => (c :: p.1, p.2))

/-- Quote state after scanning a list of characters when no unquoted `=` stops
the scan; used to reason about `findUnquotedEquals` on concatenations. -/
def scanQuoteState : List Char → Bool → Bool → Bool × Bool
  | [], inS, inD => (inS, inD)
  | c :: rest, inS, inD =>
    if c = '\'' && !inD then scanQuoteState rest (!inS) inD
    else if c = '"' && !inS then scanQuoteState rest inS (!inD)
    else scanQuoteState rest inS inD

/-- JS `String.prototype.trim()` over our character-list model. -/
def jsTrim (l : List Char) : List Char :=
  ((l.dropWhile isJsSpace).reverse.dropWhile isJsSpace).reverse

/-- Result of JS `parseAssignment` (index.js line 86): the trimmed key and the
raw (untrimmed) value text after the first unquoted `=`. -/
structure Assignment where
  key : List Char
  rawValue : List Char
deriving DecidableEq, Repr

/-- JS `parseAssignment` (index.js line 86). -/
def parseAssignment (line : List Char) : Option Assignment :=
  let w := stripExportPrefix line
  match findUnquotedEquals w false false with
  | none => none
  | some p => some ⟨jsTrim p.1, p.2⟩

/-- Tokens produced by the tokenizer (index.js lines 97-119). -/
inductive Token where
  | blank (raw : List Char)
  | comment (raw : List Char)
  | assignment (raw : List Char) (key : List Char) (rawValue : List Char)
deriving DecidableEq, Repr

/-- The raw line stored in a token. -/
def Token.raw : Token → List Char
  | .blank r => r
  | .comment r => r
  | .assignment r _ _ => r

/-- Classification of one line, as done inside the loop of `tokenizeEnvFile`
(index.js lines 100-117): blank first, then comment, then assignment with a
non-empty key; anything else is kept verbatim as a comment token. -/
def classifyLine (line : List Char) : Token :=
  if isBlankLine line then .blank line
  else if isCommentLine line then .comment line
  else
    match parseAssignment line with
    | some a => if a.key.isEmpty then .comment line else .assignment line a.key a.rawValue
    | none => .comment line

/-- Prepend a character to the first line of a line list (helper for
`splitCRLF`; the empty case never occurs since `splitCRLF` is never empty). -/
def consHead (c : Char) : List (List Char) → List (List Char)
  | [] => [[c]]
  | l :: ls => (c :: l) :: ls

/-- JS `content.split(/\r?\n/)` (index.js line 98): split on every `\n`,
consuming one `\r` immediately before it as part of the separator. -/
def splitCRLF : List Char → List (List Char)
  | [] => [[]]
  | '\r' :: '\n' :: rest => [] :: splitCRLF rest
  | '\n' :: rest => [] :: splitCRLF rest
  | c :: rest => consHead c (splitCRLF rest)

/-- Copy of a character list with every `\r\n` pair replaced by `\n`; the
normal form that splitting on `/\r?\n/` and re-joining with `\n` produces. -/
def stripCRLF : List Char → List Char
  | [] => []
  | '\r' :: '\n' :: rest => '\n' :: stripCRLF rest
  | '\n' :: rest => '\n' :: stripCRLF rest
  | c :: rest => c :: stripCRLF rest

/-- Whether the content contains a `\r\n` pair (i.e. whether splitting on
`/\r?\n/` discards any `\r`). -/
def hasCRLF : List Char → Bool
  | [] => false
  | '\r' :: '\n' :: _ => true
  | _ :: rest => hasCRLF rest

/-- JS `tokenizeEnvFile` (index.js line 97). -/
def tokenizeEnvFile (content : List Char) : List Token :=
  (splitCRLF content).map classifyLine

/-- Entry of the key index (index.js line 123): a first-time key together with
the blank/comment lines accumulated immediately before it. -/
structure KeyEntry where
  key : List Char
  commentsBefore : List (List Char)
deriving DecidableEq, Repr

/-- Result of `buildKeyIndexWithLeadingComments` (index.js line 121). -/
structure KeyIndex where
  entries : List KeyEntry
  trailing : List (List Char)
deriving DecidableEq, Repr

/-- Loop of JS `buildKeyIndexWithLeadingComments` (index.js lines 127-139),
with the mutable `seen` set and `pending` accumulator made explicit.  Note
that `pending = []` is executed on every assignment token, whether or not its
key was already seen. -/
def buildKeyIndexAux : List Token → List (List Char) → List (List Char) →
    List KeyEntry × List (List Char)
  | [], _, pending => ([], pending)
  | .blank raw :: rest, seen, pending => buildKeyIndexAux rest seen (pending ++ [raw])
  | .comment raw :: rest, seen, pending => buildKeyIndexAux rest seen (pending ++ [raw])
  | .assignment _ key _ :: rest, seen, pending =>
    if key ∈ seen then buildKeyIndexAux rest seen []
    else
      let r := buildKeyIndexAux rest (key :: seen) []
      (⟨key, pending⟩ :: r.1, r.2)

/-- JS `buildKeyIndexWithLeadingComments` (index.js line 121). -/
def buildKeyIndexWithLeadingComments (tokens : List Token) : KeyIndex :=
  let r := buildKeyIndexAux tokens [] []
  ⟨r.1, r.2⟩

/-- Result of `uniqueKeyOrderFromTokens` (index.js line 144). -/
structure MergeResult where
  orderedEntries : List KeyEntry
  trailingPrimary : List (List Char)
  trailingSecondary : List (List Char)
deriving DecidableEq, Repr

/-- Loop of JS `uniqueKeyOrderFromTokens` (index.js lines 149-154): appends
each secondary entry whose key is not yet seen, updating the seen set. -/
def mergeEntriesAux : List KeyEntry → List (List Char) → List KeyEntry → List KeyEntry
  | merged, _, [] => merged
  | merged, seen, e :: es =>
    if e.key ∈ seen then mergeEntriesAux merged seen es
    else mergeEntriesAux (merged ++ [e]) (e.key :: seen) es

/-- JS `uniqueKeyOrderFromTokens` (index.js line 144). -/
def uniqueKeyOrderFromTokens (primaryTokens secondaryTokens : List Token) : MergeResult :=
  let pIdx := buildKeyIndexWithLeadingComments primaryTokens
  let sIdx := buildKeyIndexWithLeadingComments secondaryTokens
  ⟨mergeEntriesAux pIdx.entries (pIdx.entries.map (fun e => e.key)) sIdx.entries,
   pIdx.trailing, sIdx.trailing⟩

/-- Guarded tokenization of a possibly-empty content string: JS
`envContent ? tokenizeEnvFile(envContent) : []` (the empty string is falsy;
`main` passes `envContent || ""` so an absent file arrives here as `""`). -/
def tokensOf (content : List Char) : List Token :=
  if content.isEmpty then [] else tokenizeEnvFile content

/-- Keys of the assignment tokens of a token list, in order (used for the JS
`Set`s of keys built by `filter`/`map` at index.js lines 222, 243-245). -/
def assignmentKeys (ts : List Token) : List (List Char) :=
  ts.filterMap (fun t =>
    match t with
    | .assignment _ k _ => some k
    | _ => none)

/-- JS `lines.join("\n")`. -/
def joinNL : List (List Char) → List Char
  | [] => []
  | [l] => l
  | l :: ls => l ++ '\n' :: joinNL ls

/-- Leading block of `buildExampleFromScratch` (index.js lines 185-189): raw
lines of the initial run of comment/blank tokens of the primary source. -/
def takeLeadingRaw : List Token → List (List Char)
  | .blank raw :: rest => raw :: takeLeadingRaw rest
  | .comment raw :: rest => raw :: takeLeadingRaw rest
  | _ => []

/-- Entry-rendering loop of `buildExampleFromScratch` (index.js lines
192-211), with the `firstEntryProcessed` flag made an explicit argument.  A
non-empty comment block equal to the already-emitted leading block is skipped
for the first entry only. -/
def renderEntryLines (leading : List (List Char)) :
    List KeyEntry → Bool → List (List Char)
  | [], _ => []
  | e :: rest, firstProcessed =>
    let cb :=
      if e.commentsBefore.isEmpty then []
      else if !firstProcessed && !leading.isEmpty && e.commentsBefore = leading then []
      else e.commentsBefore
    cb ++ ((e.key ++ ['=']) :: renderEntryLines leading rest true)

/-- JS `buildExampleFromScratch` (index.js line 177). -/
def buildExampleFromScratch (envContent envLocalContent : List Char) : List Char :=
  let envTokens := tokensOf envContent
  let envLocalTokens := tokensOf envLocalContent
  let m := uniqueKeyOrderFromTokens envTokens envLocalTokens
  let leading := takeLeadingRaw envTokens
  let trailing := if m.trailingPrimary.isEmpty then m.trailingSecondary else m.trailingPrimary
  joinNL (leading ++ renderEntryLines leading m.orderedEntries false ++ trailing) ++ ['\n']

/-- JS `exampleContent.replace(/\s*$/, "")` (index.js line 231): removal of
the maximal trailing whitespace run. -/
def rstripJsSpace (l : List Char) : List Char :=
  (l.reverse.dropWhile isJsSpace).reverse

/-- The appended section header (index.js line 232), with the `nowStamp()`
result passed in as a parameter (see `nowStamp` discussion in the theorems:
the stamp is the one input of the core that does not come from the files). -/
def headerLine (stamp : List Char) : List Char :=
  ("# --- Added by copy-env-keys-to-env-example on ".toList) ++ stamp ++ (" ---".toList)

/-- Missing-key computation of `appendMissingKeysToExample` (index.js lines
221-228): merged source entries whose key is not among the assignment keys of
the existing content. -/
def missingEntries (exampleContent envContent envLocalContent : List Char) : List KeyEntry :=
  let exampleKeys := assignmentKeys (tokenizeEnvFile exampleContent)
  let m := uniqueKeyOrderFromTokens (tokensOf envContent) (tokensOf envLocalContent)
  m.orderedEntries.filter (fun e => ¬ e.key ∈ exampleKeys)

/-- JS `appendMissingKeysToExample` (index.js line 220); `stamp` stands for
the value of `nowStamp()` read from the system clock at line 232. -/
def appendMissingKeysToExample (stamp exampleContent envContent envLocalContent : List Char) :
    List Char :=
  let missing := missingEntries exampleContent envContent envLocalContent
  if missing.isEmpty then exampleContent
  else
    let lines := splitCRLF (rstripJsSpace exampleContent)
    let extra := (missing.map (fun e => e.commentsBefore ++ [e.key ++ ['=']])).flatten
    joinNL (lines ++ headerLine stamp :: extra) ++ ['\n']

/-- JS constant `WARNING_MISSING_IN_SOURCES` (index.js line 7). -/
def WARNING_MISSING_IN_SOURCES : List Char :=
  "# NOTE: Key not found in .env or .env.local".toList

/-- The nearest preceding non-blank output line (index.js lines 255-257):
walk `output` from the end skipping `/^\s*$/` lines. -/
def lastNonBlank (out : List (List Char)) : Option (List Char) :=
  (out.reverse.dropWhile (fun l => isBlankLine l)).head?

/-- Body of one iteration of JS `markUnknownKeysInExample`'s loop (index.js
lines 250-259): the output array after the conditional warning insert and
before the line itself is pushed. -/
def markStep (presentKeys : List (List Char)) (out : List (List Char))
    (line : List Char) : List (List Char) :=
  match parseAssignment line with
  | some a =>
    if ¬ a.key.isEmpty ∧ ¬ a.key ∈ presentKeys then
      if lastNonBlank out = some WARNING_MISSING_IN_SOURCES then out
      else out ++ [WARNING_MISSING_IN_SOURCES]
    else out
  | none => out

/-- Loop of JS `markUnknownKeysInExample` (index.js lines 249-262) with the
`output` array as an explicit accumulator. -/
def markLinesAux (presentKeys : List (List Char)) (out : List (List Char)) :
    List (List Char) → List (List Char)
  | [] => out
  | line :: rest =>
    markLinesAux presentKeys (markStep presentKeys out line ++ [line]) rest

/-- JS `output.join("\n").replace(/\n*$/, "\n")` (index.js line 264): the
maximal trailing run of `\n` (possibly empty) is replaced by a single `\n`. -/
def normalizeTrailingNL (s : List Char) : List Char :=
  (s.reverse.dropWhile (fun c => c = '\n')).reverse ++ ['\n']

/-- Union of source keys used by the annotator (index.js lines 243-245). -/
def presentKeysOf (envContent envLocalContent : List Char) : List (List Char) :=
  assignmentKeys (tokensOf envContent) ++ assignmentKeys (tokensOf envLocalContent)

/-- JS `markUnknownKeysInExample` (index.js line 240). -/
def markUnknownKeysInExample (exampleContent envContent envLocalContent : List Char) :
    List Char :=
  normalizeTrailingNL
    (joinNL (markLinesAux (presentKeysOf envContent envLocalContent) []
      (splitCRLF exampleContent)))

/-- The existing-template pipeline of `main` (index.js lines 293-294):
annotate unknown keys, then append missing keys. -/
def patchPipeline (stamp exampleContent envContent envLocalContent : List Char) : List Char :=
  appendMissingKeysToExample stamp
    (markUnknownKeysInExample exampleContent envContent envLocalContent)
    envContent envLocalContent

/-! ## Basic lemmas about splitting, joining and classification -/

/-- Every token stores the exact line it was classified from. -/
theorem raw_classifyLine (l : List Char) : (classifyLine l).raw = l := by
  unfold classifyLine
  split
  · rfl
  · split
    · rfl
    · split
      · split <;> rfl
      · rfl

theorem splitCRLF_ne_nil (c : List Char) : splitCRLF c ≠ [] := by
  induction c using splitCRLF.induct with
  | case1 => simp [splitCRLF]
  | case2 rest ih => simp [splitCRLF]
  | case3 rest ih => simp [splitCRLF]
  | case4 c rest h1 h2 ih =>
    rw [splitCRLF.eq_4 c rest h1 h2]
    cases h : splitCRLF rest with
    | nil => exact absurd h ih
    | cons l ls => simp [consHead]

theorem joinNL_cons_of_ne_nil (l : List Char) (ls : List (List Char)) (h : ls ≠ []) :
    joinNL (l :: ls) = l ++ '\n' :: joinNL ls := by
  cases ls with
  | nil => exact absurd rfl h
  | cons l2 ls2 => rfl

theorem joinNL_consHead (c : Char) (ls : List (List Char)) (h : ls ≠ []) :
    joinNL (consHead c ls) = c :: joinNL ls := by
  cases ls with
  | nil => exact absurd rfl h
  | cons l ls2 =>
    cases ls2 with
    | nil => rfl
    | cons l2 ls3 => rfl

/-- Joining the split lines with `\n` rebuilds the content with every `\r\n`
collapsed to `\n`. -/
theorem joinNL_splitCRLF (c : List Char) : joinNL (splitCRLF c) = stripCRLF c := by
  induction c using splitCRLF.induct with
  | case1 => rfl
  | case2 rest ih =>
    show joinNL ([] :: splitCRLF rest) = '\n' :: stripCRLF rest
    rw [joinNL_cons_of_ne_nil _ _ (splitCRLF_ne_nil rest), ih]
    rfl
  | case3 rest ih =>
    show joinNL ([] :: splitCRLF rest) = '\n' :: stripCRLF rest
    rw [joinNL_cons_of_ne_nil _ _ (splitCRLF_ne_nil rest), ih]
    rfl
  | case4 c rest h1 h2 ih =>
    rw [splitCRLF.eq_4 c rest h1 h2, stripCRLF.eq_4 c rest h1 h2,
      joinNL_consHead _ _ (splitCRLF_ne_nil rest), ih]

theorem hasCRLF_cons_false {c : Char} {rest : List Char}
    (h : hasCRLF (c :: rest) = false) : hasCRLF rest = false := by
  rw [hasCRLF.eq_def] at h
  split at h
  · rename_i heq
    exact absurd heq (List.cons_ne_nil _ _)
  · exact absurd h (by simp)
  · rename_i hcond heq
    injection heq with h1 h2
    subst h2
    exact h

/-- Content without a `\r\n` pair is untouched by `stripCRLF`. -/
theorem stripCRLF_eq_self (c : List Char) (h : hasCRLF c = false) : stripCRLF c = c := by
  induction c using stripCRLF.induct with
  | case1 => rfl
  | case2 rest ih => simp [hasCRLF] at h
  | case3 rest ih =>
    show '\n' :: stripCRLF rest = '\n' :: rest
    rw [ih (hasCRLF_cons_false h)]
  | case4 c rest h1 h2 ih =>
    rw [stripCRLF.eq_4 c rest h1 h2]
    rw [ih (hasCRLF_cons_false h)]

/-- C3, amended part: rejoining all token raw lines with `\n` reproduces the
content with `\r\n` collapsed to `\n`; byte-for-byte exactly when the content
has no `\r\n` pair. -/
theorem tokenize_rejoin (c : List Char) :
    joinNL ((tokenizeEnvFile c).map Token.raw) = stripCRLF c := by
  have : (tokenizeEnvFile c).map Token.raw = splitCRLF c := by
    unfold tokenizeEnvFile
    rw [List.map_map]
    have : (Token.raw ∘ classifyLine) = id := by
      funext l; exact raw_classifyLine l
    rw [this, List.map_id]
  rw [this, joinNL_splitCRLF]

/-- C3: for every input file content, concatenating the raw line of every
token produced by `tokenizeEnvFile`, joined by newline, reproduces the
original content with each `\r\n` separator normalized to `\n`; for content
whose line endings are bare `\n` the reproduction is exact, byte-for-byte
(no trailing-newline adjustment is needed).  The claim's stronger statement
(byte-exact round-trip in any line-ending style) fails for `\r\n` content,
see the counterexample. -/
theorem roundtrip_losslessness :
    (∀ c : List Char, joinNL ((tokenizeEnvFile c).map Token.raw) = stripCRLF c) ∧
    (∀ c : List Char, hasCRLF c = false →
      joinNL ((tokenizeEnvFile c).map Token.raw) = c) := by
  refine ⟨tokenize_rejoin, fun c h => ?_⟩
  rw [tokenize_rejoin, stripCRLF_eq_self c h]

/-- C3, witness: the round trip is byte-exact on a concrete two-line file with
bare `\n` endings (trailing newline included). -/
theorem roundtrip_losslessness_witness :
    hasCRLF ("a=1\n# c\n".toList) = false ∧
    joinNL ((tokenizeEnvFile ("a=1\n# c\n".toList)).map Token.raw) = "a=1\n# c\n".toList :=
  ⟨by decide, roundtrip_losslessness.2 ("a=1\n# c\n".toList) (by decide)⟩

/-- C3, counterexample: for the content `"a\r\nb"` (CRLF line ending) the
rejoined raw lines give `"a\nb"`, which differs from the original, and not
merely in trailing newlines (both strings end in `b`; normalizing trailing
newlines on both sides still leaves them different). -/
theorem roundtrip_crlf_counterexample :
    joinNL ((tokenizeEnvFile ("a\r\nb".toList)).map Token.raw) = "a\nb".toList ∧
    "a\nb".toList ≠ "a\r\nb".toList ∧
    normalizeTrailingNL ("a\nb".toList) ≠ normalizeTrailingNL ("a\r\nb".toList) := by
  refine ⟨by decide, by decide, by decide⟩

/-! ## Key index and merger lemmas -/

/-- Keys of a list of key entries, in order. -/
def keysOfEntries (es : List KeyEntry) : List (List Char) :=
  es.map (fun e => e.key)

/-- First-occurrence de-duplication (specification-side description of the
"first occurrence wins" policy), with an explicit seen accumulator. -/
def dedupFirstAux (seen : List (List Char)) : List (List Char) → List (List Char)
  | [] => []
  | k :: ks => if k ∈ seen then dedupFirstAux seen ks else k :: dedupFirstAux (k :: seen) ks

/-- First-occurrence de-duplication of a key list. -/
def dedupFirst (ks : List (List Char)) : List (List Char) := dedupFirstAux [] ks

/-- Keys of the merged entry list. -/
def mergedKeys (p s : List Token) : List (List Char) :=
  keysOfEntries (uniqueKeyOrderFromTokens p s).orderedEntries

theorem mem_dedupFirstAux (seen ks : List (List Char)) (k : List Char) :
    k ∈ dedupFirstAux seen ks ↔ (k ∈ ks ∧ ¬ k ∈ seen) := by
  induction ks generalizing seen with
  | nil => simp [dedupFirstAux]
  | cons a ks ih =>
    by_cases h : a ∈ seen
    · rw [dedupFirstAux, if_pos h, ih]
      constructor
      · rintro ⟨h1, h2⟩; exact ⟨.tail _ h1, h2⟩
      · rintro ⟨h1, h2⟩
        cases h1 with
        | head => exact absurd h h2
        | tail _ h1 => exact ⟨h1, h2⟩
    · rw [dedupFirstAux, if_neg h]
      constructor
      · intro hm
        rcases List.mem_cons.1 hm with rfl | hm
        · exact ⟨.head _, h⟩
        · have hmm := (ih (a :: seen)).1 hm
          exact ⟨.tail _ hmm.1, fun hs => hmm.2 (.tail _ hs)⟩
      · rintro ⟨h1, h2⟩
        rcases List.mem_cons.1 h1 with rfl | h1
        · exact .head _
        · by_cases hk : k = a
          · subst hk; exact .head _
          · refine List.mem_cons.2 (Or.inr ((ih (a :: seen)).2 ⟨h1, ?_⟩))
            intro hs
            rcases List.mem_cons.1 hs with rfl | hs
            · exact hk rfl
            · exact h2 hs

theorem nodup_dedupFirstAux (seen ks : List (List Char)) :
    (dedupFirstAux seen ks).Nodup := by
  induction ks generalizing seen with
  | nil => simp [dedupFirstAux]
  | cons a ks ih =>
    by_cases h : a ∈ seen
    · rw [dedupFirstAux, if_pos h]; exact ih seen
    · rw [dedupFirstAux, if_neg h]
      refine List.Nodup.cons ?_ (ih (a :: seen))
      intro hmem
      rw [mem_dedupFirstAux] at hmem
      exact hmem.2 (.head _)

/-- The keys of the entries produced by the Key Indexer are the
first-occurrence de-duplication of the assignment keys of the token list
(relative to an initial seen set); the pending comment accumulator has no
influence on the keys. -/
theorem keys_buildKeyIndexAux (ts : List Token) (seen pending : List (List Char)) :
    (buildKeyIndexAux ts seen pending).1.map (fun e => e.key) =
      dedupFirstAux seen (assignmentKeys ts) := by
  induction ts generalizing seen pending with
  | nil => simp [buildKeyIndexAux, assignmentKeys, dedupFirstAux]
  | cons t ts ih =>
    cases t with
    | blank raw => simpa [buildKeyIndexAux, assignmentKeys] using ih seen (pending ++ [raw])
    | comment raw => simpa [buildKeyIndexAux, assignmentKeys] using ih seen (pending ++ [raw])
    | assignment raw k v =>
      by_cases h : k ∈ seen
      · simp only [buildKeyIndexAux, if_pos h, assignmentKeys, List.filterMap_cons]
        rw [ih seen []]
        simp [dedupFirstAux, if_pos h, assignmentKeys]
      · simp only [buildKeyIndexAux, if_neg h, assignmentKeys, List.filterMap_cons]
        simp only [List.map_cons]
        rw [ih (k :: seen) []]
        simp [dedupFirstAux, if_neg h, assignmentKeys]

theorem keys_buildKeyIndex (ts : List Token) :
    keysOfEntries (buildKeyIndexWithLeadingComments ts).entries =
      dedupFirst (assignmentKeys ts) :=
  keys_buildKeyIndexAux ts [] []

theorem mergeEntriesAux_eq_filter (es : List KeyEntry) (merged : List KeyEntry)
    (seen : List (List Char)) (h : (es.map (fun e => e.key)).Nodup) :
    mergeEntriesAux merged seen es = merged ++ es.filter (fun e => ¬ e.key ∈ seen) := by
  induction es generalizing merged seen with
  | nil => simp [mergeEntriesAux]
  | cons e es ih =>
    simp only [List.map_cons, List.nodup_cons] at h
    by_cases hm : e.key ∈ seen
    · rw [mergeEntriesAux, if_pos hm, ih _ _ h.2]
      simp [List.filter_cons, hm]
    · rw [mergeEntriesAux, if_neg hm, ih _ _ h.2]
      have hfilter : es.filter (fun e' => ¬ e'.key ∈ (e.key :: seen)) =
          es.filter (fun e' => ¬ e'.key ∈ seen) := by
        apply List.filter_congr
        intro e' he'
        have : e'.key ≠ e.key := by
          intro hk
          exact h.1 (hk ▸ List.mem_map_of_mem (fun x => x.key) he')
        simp [List.mem_cons, this]
      rw [hfilter]
      simp [List.filter_cons, hm]

/-- The merged entry list is: all primary entries, then the secondary entries
whose key does not occur among the primary keys. -/
theorem orderedEntries_eq (p s : List Token) :
    (uniqueKeyOrderFromTokens p s).orderedEntries =
      (buildKeyIndexWithLeadingComments p).entries ++
        (buildKeyIndexWithLeadingComments s).entries.filter
          (fun e => ¬ e.key ∈ keysOfEntries (buildKeyIndexWithLeadingComments p).entries) := by
  unfold uniqueKeyOrderFromTokens
  apply mergeEntriesAux_eq_filter
  have := keys_buildKeyIndex s
  unfold keysOfEntries at this
  rw [this]
  exact nodup_dedupFirstAux _ _

theorem keys_of_filter (es : List KeyEntry) (q : List Char → Bool) :
    (es.filter (fun e => q e.key)).map (fun e => e.key) =
      (es.map (fun e => e.key)).filter q := by
  induction es with
  | nil => rfl
  | cons e es ih =>
    cases hq : q e.key <;> simp [List.filter_cons, hq, ih]

/-- Key-level description of the merger. -/
theorem mergedKeys_eq (p s : List Token) :
    mergedKeys p s =
      dedupFirst (assignmentKeys p) ++
        (dedupFirst (assignmentKeys s)).filter
          (fun k => ¬ k ∈ dedupFirst (assignmentKeys p)) := by
  unfold mergedKeys keysOfEntries
  rw [orderedEntries_eq, List.map_append,
    keys_of_filter _ (fun k =>
      decide (¬ k ∈ keysOfEntries (buildKeyIndexWithLeadingComments p).entries))]
  have hp := keys_buildKeyIndex p
  have hs := keys_buildKeyIndex s
  unfold keysOfEntries at hp hs
  rw [hs]
  simp only [keysOfEntries, hp]

theorem mem_dedupFirst (ks : List (List Char)) (k : List Char) :
    k ∈ dedupFirst ks ↔ k ∈ ks := by
  unfold dedupFirst
  rw [mem_dedupFirstAux]
  simp

theorem mem_mergedKeys (p s : List Token) (k : List Char) :
    k ∈ mergedKeys p s ↔ (k ∈ assignmentKeys p ∨ k ∈ assignmentKeys s) := by
  rw [mergedKeys_eq, List.mem_append, List.mem_filter]
  constructor
  · rintro (h | ⟨h, _⟩)
    · exact Or.inl ((mem_dedupFirst _ _).1 h)
    · exact Or.inr ((mem_dedupFirst _ _).1 h)
  · rintro (h | h)
    · exact Or.inl ((mem_dedupFirst _ _).2 h)
    · by_cases hp : k ∈ assignmentKeys p
      · exact Or.inl ((mem_dedupFirst _ _).2 hp)
      · refine Or.inr ⟨(mem_dedupFirst _ _).2 h, ?_⟩
        simpa [mem_dedupFirst] using hp

theorem nodup_mergedKeys (p s : List Token) : (mergedKeys p s).Nodup := by
  rw [mergedKeys_eq]
  refine List.Nodup.append (nodup_dedupFirstAux _ _)
    (List.Nodup.filter _ (nodup_dedupFirstAux _ _)) ?_
  intro k hk1 hk2
  rw [List.mem_filter] at hk2
  have := hk2.2
  simp only [decide_not, Bool.not_eq_true', decide_eq_false_iff_not] at this
  exact this hk1

/-! ## Decomposition of the quote-aware splitter -/

theorem findUnquotedEquals_split :
    ∀ (w : List Char) (s d : Bool) (p : List Char × List Char),
      findUnquotedEquals w s d = some p → w = p.1 ++ '=' :: p.2 := by
  intro w
  induction w with
  | nil => intro s d p h; simp [findUnquotedEquals] at h
  | cons c rest ih =>
    intro s d p h
    rw [findUnquotedEquals] at h
    split at h
    · rcases Option.map_eq_some'.1 h with ⟨q, hq, hp⟩
      subst hp
      have := ih _ _ q hq
      rw [List.cons_append]
      exact congrArg (c :: ·) this
    · split at h
      · rcases Option.map_eq_some'.1 h with ⟨q, hq, hp⟩
        subst hp
        have := ih _ _ q hq
        rw [List.cons_append]
        exact congrArg (c :: ·) this
      · split at h
        · rename_i hcond
          simp only [Bool.and_eq_true, decide_eq_true_eq] at hcond
          have hp := Option.some.inj h
          subst hp
          simp [hcond.1.1]
        · rcases Option.map_eq_some'.1 h with ⟨q, hq, hp⟩
          subst hp
          have := ih _ _ q hq
          rw [List.cons_append]
          exact congrArg (c :: ·) this

/-- Every successful parse is of the form: (possibly export-stripped) line =
`rawKey ++ "=" ++ rawValue`, with the reported key obtained from the raw key
by trimming surrounding whitespace only. -/
theorem parseAssignment_split (line : List Char) (a : Assignment)
    (h : parseAssignment line = some a) :
    ∃ rawKey, a.key = jsTrim rawKey ∧
      stripExportPrefix line = rawKey ++ '=' :: a.rawValue := by
  simp only [parseAssignment] at h
  cases hf : findUnquotedEquals (stripExportPrefix line) false false with
  | none => rw [hf] at h; exact absurd h (by simp)
  | some p =>
    rw [hf] at h
    have h' := Option.some.inj h
    subst h'
    exact ⟨p.1, rfl, findUnquotedEquals_split _ _ _ _ hf⟩

/-! ## State-tracking versions of the Key Indexer walk -/

/-- Seen-key set after the Key Indexer walks a token list. -/
def seenAfter : List Token → List (List Char) → List (List Char)
  | [], seen => seen
  | .blank _ :: rest, seen => seenAfter rest seen
  | .comment _ :: rest, seen => seenAfter rest seen
  | .assignment _ k _ :: rest, seen =>
    seenAfter rest (if k ∈ seen then seen else k :: seen)

/-- Pending comment accumulator after the Key Indexer walks a token list;
note it does not depend on the seen set, because the accumulator is cleared
on every assignment token. -/
def pendingAfter : List Token → List (List Char) → List (List Char)
  | [], pending => pending
  | .blank raw :: rest, pending => pendingAfter rest (pending ++ [raw])
  | .comment raw :: rest, pending => pendingAfter rest (pending ++ [raw])
  | .assignment _ _ _ :: rest, _ => pendingAfter rest []

theorem mem_seenAfter (ts : List Token) (seen : List (List Char)) (k : List Char) :
    k ∈ seenAfter ts seen ↔ (k ∈ assignmentKeys ts ∨ k ∈ seen) := by
  induction ts generalizing seen with
  | nil => simp [seenAfter, assignmentKeys]
  | cons t ts ih =>
    cases t with
    | blank raw => simp [seenAfter, assignmentKeys, ih]
    | comment raw => simp [seenAfter, assignmentKeys, ih]
    | assignment raw k' v =>
      by_cases h : k' ∈ seen
      · simp only [seenAfter, if_pos h, ih, assignmentKeys, List.filterMap_cons]
        constructor
        · rintro (h1 | h1)
          · exact Or.inl (List.mem_cons_of_mem _ h1)
          · exact Or.inr h1
        · rintro (h1 | h1)
          · rcases List.mem_cons.1 h1 with rfl | h1
            · exact Or.inr h
            · exact Or.inl h1
          · exact Or.inr h1
      · simp only [seenAfter, if_neg h, ih, assignmentKeys, List.filterMap_cons]
        constructor
        · rintro (h1 | h1)
          · exact Or.inl (List.mem_cons_of_mem _ h1)
          · rcases List.mem_cons.1 h1 with rfl | h1
            · exact Or.inl (List.mem_cons_self _ _)
            · exact Or.inr h1
        · rintro (h1 | h1)
          · rcases List.mem_cons.1 h1 with rfl | h1
            · exact Or.inr (List.mem_cons_self _ _)
            · exact Or.inl h1
          · exact Or.inr (List.mem_cons_of_mem _ h1)

theorem buildKeyIndexAux_append (ts us : List Token) (seen pending : List (List Char)) :
    buildKeyIndexAux (ts ++ us) seen pending =
      ((buildKeyIndexAux ts seen pending).1 ++
        (buildKeyIndexAux us (seenAfter ts seen) (pendingAfter ts pending)).1,
       (buildKeyIndexAux us (seenAfter ts seen) (pendingAfter ts pending)).2) := by
  induction ts generalizing seen pending with
  | nil => simp [buildKeyIndexAux, seenAfter, pendingAfter]
  | cons t ts ih =>
    cases t with
    | blank raw =>
      simp only [List.cons_append, buildKeyIndexAux, seenAfter, pendingAfter]
      exact ih _ _
    | comment raw =>
      simp only [List.cons_append, buildKeyIndexAux, seenAfter, pendingAfter]
      exact ih _ _
    | assignment raw k v =>
      by_cases h : k ∈ seen
      · simp only [List.cons_append, buildKeyIndexAux, if_pos h, seenAfter, pendingAfter]
        exact ih _ _
      · simp only [List.cons_append, buildKeyIndexAux, if_neg h, seenAfter, pendingAfter,
          List.append_eq]
        rw [ih _ _]

/-! ## Claims C4, C8, C10 -/

/-- C4: for all primary and secondary token lists the merged entry list has
pairwise distinct keys; its key sequence is the first-occurrence
de-duplication of the primary assignment keys followed by the de-duplicated
secondary keys that do not occur in the primary; every merged entry is the
primary entry of its key (first occurrence, with its attached comments) or,
for keys absent from the primary, the secondary entry; and for primary keys
`[a,b,c]` and secondary keys `[b,d,a,e]` the merged order is
`[a,b,c,d,e]`. -/
theorem merged_key_list_correct :
    (∀ p s : List Token, (mergedKeys p s).Nodup) ∧
    (∀ p s : List Token,
      mergedKeys p s =
        dedupFirst (assignmentKeys p) ++
          (dedupFirst (assignmentKeys s)).filter
            (fun k => ¬ k ∈ dedupFirst (assignmentKeys p))) ∧
    (∀ (p s : List Token) (e : KeyEntry),
        e ∈ (uniqueKeyOrderFromTokens p s).orderedEntries →
        e ∈ (buildKeyIndexWithLeadingComments p).entries ∨
          (e ∈ (buildKeyIndexWithLeadingComments s).entries ∧
            ¬ e.key ∈ assignmentKeys p)) ∧
    mergedKeys (tokenizeEnvFile "a=1\nb=2\nc=3".toList)
        (tokenizeEnvFile "b=9\nd=4\na=5\ne=6".toList) =
      ["a".toList, "b".toList, "c".toList, "d".toList, "e".toList] := by
  refine ⟨nodup_mergedKeys, mergedKeys_eq, ?_, by decide⟩
  intro p s e he
  rw [orderedEntries_eq] at he
  rcases List.mem_append.1 he with h | h
  · exact Or.inl h
  · rw [List.mem_filter] at h
    refine Or.inr ⟨h.1, fun hk => ?_⟩
    have h2 := h.2
    simp only [decide_not, Bool.not_eq_true', decide_eq_false_iff_not] at h2
    apply h2
    rw [keys_buildKeyIndex p, mem_dedupFirst]
    exact hk

/-- C4, witness: concrete instantiation of the provenance part at a
secondary-only key. -/
theorem merged_key_list_correct_witness :
    (⟨"b".toList, []⟩ : KeyEntry) ∈
      (uniqueKeyOrderFromTokens (tokenizeEnvFile "a=1".toList)
        (tokenizeEnvFile "b=2".toList)).orderedEntries ∧
    ((⟨"b".toList, []⟩ : KeyEntry) ∈
        (buildKeyIndexWithLeadingComments (tokenizeEnvFile "a=1".toList)).entries ∨
      ((⟨"b".toList, []⟩ : KeyEntry) ∈
          (buildKeyIndexWithLeadingComments (tokenizeEnvFile "b=2".toList)).entries ∧
        ¬ "b".toList ∈ assignmentKeys (tokenizeEnvFile "a=1".toList))) :=
  ⟨by decide, merged_key_list_correct.2.2.1 _ _ _ (by decide)⟩

/-- C8, amended: when the Key Indexer meets an assignment token whose key has
already been indexed, it discards the token AND clears the pending
accumulator of blank/comment lines (the accumulator is reset on every
assignment token, seen or not); hence the comments preceding a duplicate do
NOT attach to the next new key — the next new key gets an empty comment
block.  (The claim as stated, i.e. that pending is kept and attaches to the
next new key, is refuted by the counterexample.) -/
theorem duplicate_assignment_clears_pending
    (ts : List Token) (c raw v raw2 v2 k k2 : List Char)
    (hk : k ∈ assignmentKeys ts) (hk2 : ¬ k2 ∈ assignmentKeys ts) :
    (buildKeyIndexWithLeadingComments
        (ts ++ [.comment c, .assignment raw k v, .assignment raw2 k2 v2])).entries =
      (buildKeyIndexWithLeadingComments ts).entries ++ [⟨k2, []⟩] := by
  unfold buildKeyIndexWithLeadingComments
  rw [buildKeyIndexAux_append]
  have hseen : k ∈ seenAfter ts [] := (mem_seenAfter ts [] k).2 (Or.inl hk)
  have hseen2 : ¬ k2 ∈ seenAfter ts [] := by
    rw [mem_seenAfter]
    rintro (h | h)
    · exact hk2 h
    · cases h
  simp [buildKeyIndexAux, hseen, hseen2]

/-- C8, witness: concrete instantiation of the amended statement. -/
theorem duplicate_assignment_clears_pending_witness :
    ("A".toList ∈ assignmentKeys (tokenizeEnvFile "A=1".toList)) ∧
    ¬ ("B".toList ∈ assignmentKeys (tokenizeEnvFile "A=1".toList)) ∧
    (buildKeyIndexWithLeadingComments
        (tokenizeEnvFile "A=1".toList ++
          [.comment "# c".toList, .assignment "A=2".toList "A".toList "2".toList,
           .assignment "B=3".toList "B".toList "3".toList])).entries =
      (buildKeyIndexWithLeadingComments (tokenizeEnvFile "A=1".toList)).entries ++
        [⟨"B".toList, []⟩] :=
  ⟨by decide, by decide,
    duplicate_assignment_clears_pending _ _ _ _ _ _ _ _ (by decide) (by decide)⟩

/-- C8, counterexample: for the token stream of `"A=1\n# c\nA=2\nB=3"`, the
comment `# c` surrounding the duplicate `A=2` does not attach to the next new
key `B` — both indexed entries have empty comment blocks, contradicting the
claim's prediction that `B` would carry `["# c"]`. -/
theorem duplicate_assignment_pending_counterexample :
    ((buildKeyIndexWithLeadingComments
        (tokenizeEnvFile "A=1\n# c\nA=2\nB=3".toList)).entries.map
      (fun e => e.commentsBefore)) = [[], []] ∧
    ([([] : List (List Char)), []] ≠ [[], ["# c".toList]]) :=
  ⟨by decide, by decide⟩

/-- C10: key comparisons are byte-exact equality of the trimmed key text.
Membership in the merged key list is plain membership among the assignment
keys of either source (no normalization beyond the trim performed at parse
time); the patcher's missing keys are exactly the merged keys not literally
among the template's assignment keys; every parsed key is the surrounding-
whitespace trim of the raw text before the first unquoted `=`; and keys
differing only in letter case are kept distinct, both by the merger and by
the missing-key computation. -/
theorem byte_exact_key_comparison :
    (∀ (p s : List Token) (k : List Char),
        k ∈ mergedKeys p s ↔ (k ∈ assignmentKeys p ∨ k ∈ assignmentKeys s)) ∧
    (∀ (tpl env loc k : List Char),
        k ∈ (missingEntries tpl env loc).map (fun e => e.key) ↔
          (k ∈ mergedKeys (tokensOf env) (tokensOf loc) ∧
            ¬ k ∈ assignmentKeys (tokenizeEnvFile tpl))) ∧
    (∀ (line : List Char) (a : Assignment), parseAssignment line = some a →
        ∃ rawKey, a.key = jsTrim rawKey ∧
          stripExportPrefix line = rawKey ++ '=' :: a.rawValue) ∧
    mergedKeys (tokenizeEnvFile "FOO=1\nfoo=2".toList) [] =
      ["FOO".toList, "foo".toList] ∧
    (missingEntries "foo=\n".toList "FOO=1\n".toList []).map (fun e => e.key) =
      ["FOO".toList] := by
  refine ⟨mem_mergedKeys, ?_, parseAssignment_split, by decide, by decide⟩
  intro tpl env loc k
  simp only [missingEntries]
  rw [keys_of_filter _ (fun k =>
    decide (¬ k ∈ assignmentKeys (tokenizeEnvFile tpl)))]
  rw [List.mem_filter]
  simp only [decide_not, Bool.not_eq_true', decide_eq_false_iff_not]
  exact Iff.rfl

/-- C10, witness: concrete instantiation of the trim decomposition on the
line `"  K  =v"`. -/
theorem byte_exact_key_comparison_witness :
    parseAssignment "  K  =v".toList = some ⟨"K".toList, "v".toList⟩ ∧
    ∃ rawKey, ("K".toList : List Char) = jsTrim rawKey ∧
      stripExportPrefix "  K  =v".toList = rawKey ++ '=' :: "v".toList :=
  ⟨by decide,
    byte_exact_key_comparison.2.2.1 ("  K  =v".toList) ⟨"K".toList, "v".toList⟩ (by decide)⟩

/-! ## Frame lemmas for the patcher (C5, C9, C2, C6) -/

theorem joinNL_append_of_ne_nil :
    ∀ (xs ys : List (List Char)), xs ≠ [] → ys ≠ [] →
      joinNL (xs ++ ys) = joinNL xs ++ '\n' :: joinNL ys := by
  intro xs
  induction xs with
  | nil => intro ys h; exact absurd rfl h
  | cons x xs ih =>
    intro ys _ hys
    cases xs with
    | nil =>
      rw [List.singleton_append, joinNL_cons_of_ne_nil _ _ hys]
      rfl
    | cons x2 xs2 =>
      rw [List.cons_append,
        joinNL_cons_of_ne_nil _ _ (by simp),
        joinNL_cons_of_ne_nil _ _ (by simp),
        ih ys (by simp) hys]
      simp

theorem hasCRLF_append_true (xs ys : List Char) :
    hasCRLF xs = true → hasCRLF (xs ++ ys) = true := by
  induction xs using hasCRLF.induct with
  | case1 => intro h; simp [hasCRLF] at h
  | case2 rest => intro h; rfl
  | case3 c rest hcond ih =>
    intro h
    rw [hasCRLF.eq_3 c rest hcond] at h
    rw [List.cons_append, hasCRLF.eq_def]
    split
    · rename_i heq
      exact absurd heq (List.cons_ne_nil _ _)
    · rfl
    · rename_i hcond2 heq
      injection heq with h1 h2
      rw [← h2]
      exact ih h

theorem hasCRLF_of_append_false (xs ys : List Char)
    (h : hasCRLF (xs ++ ys) = false) : hasCRLF xs = false := by
  cases hx : hasCRLF xs
  · rfl
  · rw [hasCRLF_append_true xs ys hx] at h
    exact absurd h (by simp)

/-- The trailing-whitespace strip only removes a suffix. -/
theorem rstripJsSpace_prefix (l : List Char) :
    ∃ ys, l = rstripJsSpace l ++ ys := by
  refine ⟨(l.reverse.takeWhile isJsSpace).reverse, ?_⟩
  unfold rstripJsSpace
  conv_lhs =>
    rw [← List.reverse_reverse l,
      ← List.takeWhile_append_dropWhile isJsSpace l.reverse]
  rw [List.reverse_append]

theorem hasCRLF_rstrip (l : List Char) (h : hasCRLF l = false) :
    hasCRLF (rstripJsSpace l) = false := by
  obtain ⟨ys, hys⟩ := rstripJsSpace_prefix l
  rw [hys] at h
  exact hasCRLF_of_append_false _ _ h

/-- The lines block appended by the patcher below the header. -/
def appendedBlock (tpl env loc : List Char) : List (List Char) :=
  ((missingEntries tpl env loc).map (fun e => e.commentsBefore ++ [e.key ++ ['=']])).flatten

theorem appendMissing_of_no_missing (stamp tpl env loc : List Char)
    (h : missingEntries tpl env loc = []) :
    appendMissingKeysToExample stamp tpl env loc = tpl := by
  unfold appendMissingKeysToExample
  rw [if_pos (by simp [h])]

theorem appendMissing_of_missing (stamp tpl env loc : List Char)
    (h : missingEntries tpl env loc ≠ []) :
    appendMissingKeysToExample stamp tpl env loc =
      stripCRLF (rstripJsSpace tpl) ++ '\n' ::
        (joinNL (headerLine stamp :: appendedBlock tpl env loc) ++ ['\n']) := by
  unfold appendMissingKeysToExample appendedBlock
  rw [if_neg (by simpa using h)]
  dsimp only
  rw [joinNL_append_of_ne_nil _ _ (splitCRLF_ne_nil _) (List.cons_ne_nil _ _),
    joinNL_splitCRLF]
  simp

/-- C5: if the patcher has no missing keys it returns the existing template
content unchanged, byte-for-byte.  When it has missing keys, the output is
exactly the existing content — with `\r\n` line endings normalized to `\n`
and the maximal trailing whitespace run (which includes any whitespace at
the end of the last content line) removed — followed by a newline, the
timestamped header and the appended block; in particular for a template
with bare-`\n` endings the entire output before the appended header is the
template minus its trailing whitespace, verbatim and in order.  (The claim's
stronger reading — that the original line-ending style and the trailing
whitespace inside the last content line survive — is refuted by the
counterexample.) -/
theorem patcher_frame_property :
    (∀ stamp tpl env loc : List Char,
        missingEntries tpl env loc = [] →
        appendMissingKeysToExample stamp tpl env loc = tpl) ∧
    (∀ stamp tpl env loc : List Char,
        missingEntries tpl env loc ≠ [] →
        appendMissingKeysToExample stamp tpl env loc =
          stripCRLF (rstripJsSpace tpl) ++ '\n' ::
            (joinNL (headerLine stamp :: appendedBlock tpl env loc) ++ ['\n'])) ∧
    (∀ stamp tpl env loc : List Char,
        hasCRLF tpl = false →
        missingEntries tpl env loc ≠ [] →
        appendMissingKeysToExample stamp tpl env loc =
          rstripJsSpace tpl ++ '\n' ::
            (joinNL (headerLine stamp :: appendedBlock tpl env loc) ++ ['\n'])) := by
  refine ⟨appendMissing_of_no_missing, appendMissing_of_missing, ?_⟩
  intro stamp tpl env loc hlf h
  rw [appendMissing_of_missing stamp tpl env loc h,
    stripCRLF_eq_self _ (hasCRLF_rstrip _ hlf)]

/-- C5, witness: concrete instantiations of the no-op part and of the
bare-`\n` frame part. -/
theorem patcher_frame_property_witness :
    (missingEntries "A=\n".toList "A=1\n".toList [] = [] ∧
      appendMissingKeysToExample "T".toList "A=\n".toList "A=1\n".toList [] =
        "A=\n".toList) ∧
    (hasCRLF "A=\n".toList = false ∧
      missingEntries "A=\n".toList "A=1\nB=2\n".toList [] ≠ [] ∧
      appendMissingKeysToExample "T".toList "A=\n".toList "A=1\nB=2\n".toList [] =
        rstripJsSpace "A=\n".toList ++ '\n' ::
          (joinNL (headerLine "T".toList ::
            appendedBlock "A=\n".toList "A=1\nB=2\n".toList []) ++ ['\n'])) :=
  ⟨⟨by decide, patcher_frame_property.1 _ _ _ _ (by decide)⟩,
   ⟨by decide, by decide,
    patcher_frame_property.2.2 "T".toList "A=\n".toList "A=1\nB=2\n".toList []
      (by decide) (by decide)⟩⟩

/-- C5, counterexample: the template `"A=1  \n"` has the non-blank line
`"A=1  "` (with trailing spaces inside the last content line); after patching
with a missing key, no line of the output equals `"A=1  "` — the trailing
whitespace of the last content line is stripped, contradicting the claim
that every non-whitespace-only template line reappears unaltered. -/
theorem patcher_frame_counterexample :
    missingEntries "A=1  \n".toList "B=1\n".toList [] ≠ [] ∧
    "A=1  ".toList ∈ splitCRLF "A=1  \n".toList ∧
    isBlankLine "A=1  ".toList = false ∧
    ¬ "A=1  ".toList ∈
      splitCRLF (appendMissingKeysToExample "T".toList "A=1  \n".toList "B=1\n".toList []) :=
  ⟨by decide, by decide, by decide, by decide⟩

/-- C9: with the clock reading passed in as the `stamp` argument, the core
transformation is a pure function of the input strings and the stamp.  When
no key is missing, the patch result does not depend on the stamp at all
(it is the input template); when keys are missing, the two outputs for two
stamps differ only inside the header line: they share a common prefix and a
common suffix around their respective header lines.  The claim's stronger
statement — no dependence on anything outside the input strings — fails
because the header embeds the clock, see the counterexample. -/
theorem core_determinism :
    (∀ stamp1 stamp2 tpl env loc : List Char,
        missingEntries tpl env loc = [] →
        appendMissingKeysToExample stamp1 tpl env loc =
          appendMissingKeysToExample stamp2 tpl env loc) ∧
    (∀ stamp1 stamp2 tpl env loc : List Char,
        (appendMissingKeysToExample stamp1 tpl env loc = tpl ∧
          appendMissingKeysToExample stamp2 tpl env loc = tpl) ∨
        ∃ pre suf,
          appendMissingKeysToExample stamp1 tpl env loc =
            pre ++ headerLine stamp1 ++ suf ∧
          appendMissingKeysToExample stamp2 tpl env loc =
            pre ++ headerLine stamp2 ++ suf) := by
  constructor
  · intro stamp1 stamp2 tpl env loc h
    rw [appendMissing_of_no_missing _ _ _ _ h, appendMissing_of_no_missing _ _ _ _ h]
  · intro stamp1 stamp2 tpl env loc
    by_cases h : missingEntries tpl env loc = []
    · exact Or.inl ⟨appendMissing_of_no_missing _ _ _ _ h,
        appendMissing_of_no_missing _ _ _ _ h⟩
    · refine Or.inr ⟨stripCRLF (rstripJsSpace tpl) ++ ['\n'],
        (match appendedBlock tpl env loc with
          | [] => []
          | l :: ls => '\n' :: joinNL (l :: ls)) ++ ['\n'], ?_, ?_⟩ <;>
      · rw [appendMissing_of_missing _ _ _ _ h]
        cases hb : appendedBlock tpl env loc with
        | nil => simp [joinNL]
        | cons l ls =>
          rw [joinNL_cons_of_ne_nil _ _ (List.cons_ne_nil _ _)]
          simp

/-- C9, witness: concrete instantiation of the stamp-independent no-missing
case. -/
theorem core_determinism_witness :
    missingEntries "A=\n".toList "A=1\n".toList [] = [] ∧
    appendMissingKeysToExample "S1".toList "A=\n".toList "A=1\n".toList [] =
      appendMissingKeysToExample "S2".toList "A=\n".toList "A=1\n".toList [] :=
  ⟨by decide, core_determinism.1 "S1".toList "S2".toList _ _ _ (by decide)⟩

/-- C9, counterexample: with missing keys present, two runs with different
clock readings produce different outputs, so the output is not a function of
the input strings alone. -/
theorem core_determinism_counterexample :
    appendMissingKeysToExample "S1".toList "A=\n".toList "A=1\nB=2\n".toList [] ≠
      appendMissingKeysToExample "S2".toList "A=\n".toList "A=1\nB=2\n".toList [] := by
  decide

/-! ## Claims C6 and C2 (code bugs, evaluated at their failing inputs) -/

/-- C6: evaluation of the fresh-build scenario at the spec's own input.  For
`.env` content `"A=1\n# db config\nB=2\n"` and no `.env.local`, the builder
returns `"A=\n# db config\nB=\n\n"` — the claimed output plus a second
trailing newline (the final blank line of the source, kept as the trailing
block, is emitted and then `join("\n") + "\n"` appends another newline), so
the result does not end with exactly one trailing newline. -/
theorem fresh_build_scenario_evaluation :
    buildExampleFromScratch "A=1\n# db config\nB=2\n".toList [] =
      "A=\n# db config\nB=\n\n".toList ∧
    "A=\n# db config\nB=\n\n".toList ≠ "A=\n# db config\nB=\n".toList :=
  ⟨by decide, by decide⟩

/-- C2: evaluation of the patch pipeline twice at a failing input.  With the
existing template `"C=\n"` and `.env` content `"# set A=1\nB=2\n"`, the first
run appends the comment `"# set A=1"` (attached to the missing key `B`) into
the template; on the second run the annotator parses that comment line as an
assignment with unknown key `"# set A"` and inserts a new warning line above
it, so the second run's output is not byte-identical to the first run's. -/
theorem patch_pipeline_not_idempotent :
    patchPipeline "T".toList
        (patchPipeline "T".toList "C=\n".toList "# set A=1\nB=2\n".toList [])
        "# set A=1\nB=2\n".toList [] ≠
      patchPipeline "T".toList "C=\n".toList "# set A=1\nB=2\n".toList [] := by
  decide

/-- Boundary of the idempotence failure: the pipeline is idempotent whenever
the first run's output is a fixpoint of the annotator and already contains
every merged key among its assignment tokens (both conditions are decidable
and hold for typical inputs; the failing inputs are those whose appended
lines re-parse differently, e.g. comments containing an unquoted `=` or keys
starting with `export ` or `#`). -/
theorem patch_pipeline_conditionally_idempotent
    (stamp tpl env loc : List Char)
    (h1 : markUnknownKeysInExample (patchPipeline stamp tpl env loc) env loc =
      patchPipeline stamp tpl env loc)
    (h2 : missingEntries (patchPipeline stamp tpl env loc) env loc = []) :
    patchPipeline stamp (patchPipeline stamp tpl env loc) env loc =
      patchPipeline stamp tpl env loc := by
  show appendMissingKeysToExample stamp
    (markUnknownKeysInExample (patchPipeline stamp tpl env loc) env loc) env loc = _
  rw [h1]
  exact appendMissing_of_no_missing _ _ _ _ h2

/-! ## Claim C7: the Unknown-Key Annotator -/

/-- Whether a template line triggers the unknown-key warning: it parses as an
assignment (via `parseAssignment`, with no prior blank/comment check) with a
non-empty key that is in neither source. -/
def needsWarning (keys : List (List Char)) (l : List Char) : Bool :=
  match parseAssignment l with
  | some a => !a.key.isEmpty && !(decide (a.key ∈ keys))
  | none => false

/-- Specification-side annotator (amended claim): walk the template lines
once; insert the warning immediately before every line that `needsWarning`,
unless the nearest preceding non-blank ORIGINAL line (tracked in `lastNB`)
is already the warning; every line passes through unchanged in order. -/
def specAnnotate (keys : List (List Char)) (lastNB : Option (List Char)) :
    List (List Char) → List (List Char)
  | [] => []
  | l :: ls =>
    (if needsWarning keys l ∧ ¬ lastNB = some WARNING_MISSING_IN_SOURCES
     then [WARNING_MISSING_IN_SOURCES, l] else [l]) ++
    specAnnotate keys (if isBlankLine l then lastNB else some l) ls

/-- A whitespace-only line never parses as an assignment. -/
theorem parseAssignment_of_blank (l : List Char) (h : isBlankLine l = true) :
    parseAssignment l = none := by
  have hdrop : l.dropWhile isJsSpace = [] :=
    List.dropWhile_eq_nil_iff.2 (fun x hx => List.all_eq_true.1 h x hx)
  have hstrip : stripExportPrefix l = l := by
    unfold stripExportPrefix
    rw [hdrop]
    simp [exportWord]
  unfold parseAssignment
  dsimp only
  rw [hstrip]
  cases hf : findUnquotedEquals l false false with
  | none => rfl
  | some p =>
    exfalso
    have hl := findUnquotedEquals_split _ _ _ _ hf
    have hin : '=' ∈ l := by rw [hl]; simp
    exact absurd (List.all_eq_true.1 h _ hin) (by decide)

theorem needsWarning_of_blank (keys : List (List Char)) (l : List Char)
    (h : isBlankLine l = true) : needsWarning keys l = false := by
  unfold needsWarning
  rw [parseAssignment_of_blank l h]

theorem isBlankLine_of_needsWarning (keys : List (List Char)) (l : List Char)
    (h : needsWarning keys l = true) : isBlankLine l = false := by
  cases hb : isBlankLine l
  · rfl
  · rw [needsWarning_of_blank keys l hb] at h
    exact absurd h (by simp)

theorem lastNonBlank_append_singleton (out : List (List Char)) (l : List Char) :
    lastNonBlank (out ++ [l]) =
      if isBlankLine l then lastNonBlank out else some l := by
  unfold lastNonBlank
  rw [List.reverse_append]
  cases hb : isBlankLine l <;>
    simp [List.dropWhile_cons, hb]

/-- The warning-insert step, rephrased through `needsWarning`. -/
theorem markStep_eq (keys : List (List Char)) (out : List (List Char)) (l : List Char) :
    markStep keys out l =
      if needsWarning keys l ∧ ¬ lastNonBlank out = some WARNING_MISSING_IN_SOURCES
      then out ++ [WARNING_MISSING_IN_SOURCES] else out := by
  unfold markStep needsWarning
  cases hp : parseAssignment l with
  | none => simp
  | some a =>
    by_cases h1 : a.key.isEmpty
    · simp [h1]
    · by_cases h2 : a.key ∈ keys
      · simp [h1, h2]
      · by_cases h3 : lastNonBlank out = some WARNING_MISSING_IN_SOURCES
        · simp [h1, h2, h3]
        · simp [h1, h2, h3]

/-- The annotator loop equals the specification-side annotator: the lookback
over the output array coincides with the lookback over the original lines,
because an inserted warning is always immediately followed by the non-blank
line that triggered it. -/
theorem markLinesAux_eq_specAnnotate (keys : List (List Char)) :
    ∀ (ls out : List (List Char)),
      markLinesAux keys out ls = out ++ specAnnotate keys (lastNonBlank out) ls := by
  intro ls
  induction ls with
  | nil => intro out; simp [markLinesAux, specAnnotate]
  | cons l ls ih =>
    intro out
    rw [markLinesAux, specAnnotate, markStep_eq]
    by_cases hcond : needsWarning keys l = true ∧
        ¬ lastNonBlank out = some WARNING_MISSING_IN_SOURCES
    · have hnb : isBlankLine l = false := isBlankLine_of_needsWarning keys l hcond.1
      rw [if_pos hcond, if_pos hcond,
        ih ((out ++ [WARNING_MISSING_IN_SOURCES]) ++ [l]),
        lastNonBlank_append_singleton, hnb]
      simp [hnb]
    · rw [if_neg hcond, if_neg hcond, ih (out ++ [l]), lastNonBlank_append_singleton]
      cases hb : isBlankLine l <;> simp [hb]

/-- C7, amended: the annotator equals the per-line rule — insert the fixed
warning immediately before a line if and only if the line parses (via
`parseAssignment`, the §4.1 rule, applied with NO preceding blank/comment
check) to a non-empty key absent from both sources and the nearest preceding
non-blank original line is not already the warning; every original line
passes through unmodified and in order; whitespace-only lines never receive
a warning; but a comment line that contains an unquoted `=` (e.g. `# A=1`)
does — see the counterexample.  The `FOO`/`BAR` placement of the original
claim holds. -/
theorem annotator_placement :
    (∀ tpl env loc : List Char,
        markUnknownKeysInExample tpl env loc =
          normalizeTrailingNL (joinNL
            (specAnnotate (presentKeysOf env loc) none (splitCRLF tpl)))) ∧
    (∀ (keys lastNB : _) (ls : List (List Char)),
        ls.Sublist (specAnnotate keys lastNB ls)) ∧
    (∀ (keys : List (List Char)) (l : List Char),
        isBlankLine l = true → needsWarning keys l = false) ∧
    markUnknownKeysInExample "FOO=1\nBAR=2\n".toList "FOO=1\n".toList [] =
      "FOO=1\n# NOTE: Key not found in .env or .env.local\nBAR=2\n".toList := by
  refine ⟨?_, ?_, needsWarning_of_blank, by decide⟩
  · intro tpl env loc
    unfold markUnknownKeysInExample
    rw [markLinesAux_eq_specAnnotate]
    rfl
  · intro keys lastNB ls
    induction ls generalizing lastNB with
    | nil => simp [specAnnotate]
    | cons l ls ih =>
      rw [specAnnotate]
      split
      · exact List.Sublist.cons _ (List.Sublist.cons₂ _ (ih _))
      · exact List.Sublist.cons₂ _ (ih _)

/-- C7, witness: concrete instantiation of the blank-line part. -/
theorem annotator_placement_witness :
    isBlankLine "  ".toList = true ∧ needsWarning [] "  ".toList = false :=
  ⟨by decide, annotator_placement.2.2.1 [] "  ".toList (by decide)⟩

/-- C7, counterexample: for the template `"# A=1\n"` (a comment line) and no
source keys, the annotator inserts the warning above the comment line — the
comment parses as an assignment with key `"# A"` — contradicting the claim
that comment lines never receive a warning. -/
theorem annotator_comment_counterexample :
    markUnknownKeysInExample "# A=1\n".toList [] [] =
      WARNING_MISSING_IN_SOURCES ++ '\n' :: "# A=1\n".toList ∧
    isCommentLine "# A=1".toList = true ∧
    markUnknownKeysInExample "# A=1\n".toList [] [] ≠ "# A=1\n".toList :=
  ⟨by decide, by decide, by decide⟩

/-! ## Claim C1: value-independence of the outputs -/

/-- View of a token that forgets the raw line and raw value of assignments
(keeping their key) and keeps blank/comment tokens whole: exactly the data
of the sources that the generated outputs are built from.  Two source
contents that differ only in assignment values have equal views. -/
def tokenView : Token → Token
  | .blank r => .blank r
  | .comment r => .comment r
  | .assignment _ k _ => .assignment [] k []

/-- Token view of a whole content string. -/
def viewOf (c : List Char) : List Token := (tokenizeEnvFile c).map tokenView

theorem assignmentKeys_map_view (ts : List Token) :
    assignmentKeys (ts.map tokenView) = assignmentKeys ts := by
  induction ts with
  | nil => rfl
  | cons t ts ih =>
    cases t <;> simp [tokenView, assignmentKeys, List.filterMap_cons] <;>
      simpa [assignmentKeys] using ih

theorem buildKeyIndexAux_map_view (ts : List Token) :
    ∀ seen pending, buildKeyIndexAux (ts.map tokenView) seen pending =
      buildKeyIndexAux ts seen pending := by
  induction ts with
  | nil => intro seen pending; rfl
  | cons t ts ih =>
    intro seen pending
    cases t with
    | blank r => simp [tokenView, buildKeyIndexAux, ih]
    | comment r => simp [tokenView, buildKeyIndexAux, ih]
    | assignment r k v =>
      simp only [List.map_cons, tokenView, buildKeyIndexAux]
      by_cases h : k ∈ seen
      · simp [h, ih]
      · simp [h, ih]

theorem buildKeyIndex_map_view (ts : List Token) :
    buildKeyIndexWithLeadingComments (ts.map tokenView) =
      buildKeyIndexWithLeadingComments ts := by
  unfold buildKeyIndexWithLeadingComments
  rw [buildKeyIndexAux_map_view]

theorem takeLeadingRaw_map_view (ts : List Token) :
    takeLeadingRaw (ts.map tokenView) = takeLeadingRaw ts := by
  induction ts with
  | nil => rfl
  | cons t ts ih =>
    cases t with
    | blank r => simpa [tokenView, takeLeadingRaw] using ih
    | comment r => simpa [tokenView, takeLeadingRaw] using ih
    | assignment r k v => rfl

theorem uniqueKeyOrder_congr (p1 p2 s1 s2 : List Token)
    (hp : p1.map tokenView = p2.map tokenView)
    (hs : s1.map tokenView = s2.map tokenView) :
    uniqueKeyOrderFromTokens p1 s1 = uniqueKeyOrderFromTokens p2 s2 := by
  unfold uniqueKeyOrderFromTokens
  rw [← buildKeyIndex_map_view p1, ← buildKeyIndex_map_view s1, hp, hs,
    buildKeyIndex_map_view, buildKeyIndex_map_view]

theorem splitCRLF_eq_singleton_nil (c : List Char) (h : splitCRLF c = [[]]) :
    c = [] := by
  induction c using splitCRLF.induct with
  | case1 => rfl
  | case2 rest ih =>
    exfalso
    rw [show splitCRLF ('\r' :: '\n' :: rest) = [] :: splitCRLF rest from rfl] at h
    exact splitCRLF_ne_nil rest (by injection h)
  | case3 rest ih =>
    exfalso
    rw [show splitCRLF ('\n' :: rest) = [] :: splitCRLF rest from rfl] at h
    exact splitCRLF_ne_nil rest (by injection h)
  | case4 c rest h1 h2 ih =>
    exfalso
    rw [splitCRLF.eq_4 c rest h1 h2] at h
    cases hs : splitCRLF rest with
    | nil => exact splitCRLF_ne_nil rest hs
    | cons l ls =>
      rw [hs] at h
      unfold consHead at h
      injection h with ha hb
      exact List.cons_ne_nil c l ha

theorem viewOf_empty_iff (c : List Char) : viewOf c = [Token.blank []] ↔ c = [] := by
  constructor
  · intro h
    unfold viewOf tokenizeEnvFile at h
    rw [List.map_map] at h
    cases hs : splitCRLF c with
    | nil => exact absurd hs (splitCRLF_ne_nil c)
    | cons l ls =>
      rw [hs] at h
      simp only [List.map_cons, List.cons.injEq] at h
      obtain ⟨h1, h2⟩ := h
      have hls : ls = [] := List.map_eq_nil_iff.1 h2
      have hl : l = [] := by
        have hraw := raw_classifyLine l
        simp only [Function.comp_apply] at h1
        cases hcl : classifyLine l with
        | blank r =>
          rw [hcl] at h1 hraw
          unfold tokenView at h1
          injection h1 with hr
          have hrl : r = l := hraw
          rw [← hrl]
          exact hr
        | comment r =>
          rw [hcl] at h1
          unfold tokenView at h1
          exact absurd h1 (by simp)
        | assignment r k v =>
          rw [hcl] at h1
          unfold tokenView at h1
          exact absurd h1 (by simp)
      subst hl; subst hls
      exact splitCRLF_eq_singleton_nil c hs
  · intro h; subst h; rfl

theorem tokensOf_view_congr (c1 c2 : List Char) (h : viewOf c1 = viewOf c2) :
    (tokensOf c1).map tokenView = (tokensOf c2).map tokenView := by
  unfold tokensOf
  by_cases h1 : c1 = []
  · by_cases h2 : c2 = []
    · subst h1; subst h2; rfl
    · exfalso
      apply h2
      rw [← viewOf_empty_iff]
      rw [← h, h1]
      rfl
  · by_cases h2 : c2 = []
    · exfalso
      apply h1
      rw [← viewOf_empty_iff]
      rw [h, h2]
      rfl
    · rw [if_neg (by simpa using h1), if_neg (by simpa using h2)]
      exact h

theorem build_view_congr (e1 e2 l1 l2 : List Char)
    (he : viewOf e1 = viewOf e2) (hl : viewOf l1 = viewOf l2) :
    buildExampleFromScratch e1 l1 = buildExampleFromScratch e2 l2 := by
  unfold buildExampleFromScratch
  dsimp only
  have hte := tokensOf_view_congr e1 e2 he
  have htl := tokensOf_view_congr l1 l2 hl
  rw [uniqueKeyOrder_congr _ _ _ _ hte htl,
    ← takeLeadingRaw_map_view (tokensOf e1), hte, takeLeadingRaw_map_view]

theorem missingEntries_view_congr (tpl e1 e2 l1 l2 : List Char)
    (he : viewOf e1 = viewOf e2) (hl : viewOf l1 = viewOf l2) :
    missingEntries tpl e1 l1 = missingEntries tpl e2 l2 := by
  unfold missingEntries
  dsimp only
  rw [uniqueKeyOrder_congr _ _ _ _ (tokensOf_view_congr e1 e2 he)
    (tokensOf_view_congr l1 l2 hl)]

theorem append_view_congr (stamp tpl e1 e2 l1 l2 : List Char)
    (he : viewOf e1 = viewOf e2) (hl : viewOf l1 = viewOf l2) :
    appendMissingKeysToExample stamp tpl e1 l1 =
      appendMissingKeysToExample stamp tpl e2 l2 := by
  unfold appendMissingKeysToExample
  dsimp only
  rw [missingEntries_view_congr tpl e1 e2 l1 l2 he hl]

theorem presentKeysOf_view_congr (e1 e2 l1 l2 : List Char)
    (he : viewOf e1 = viewOf e2) (hl : viewOf l1 = viewOf l2) :
    presentKeysOf e1 l1 = presentKeysOf e2 l2 := by
  unfold presentKeysOf
  rw [← assignmentKeys_map_view (tokensOf e1), ← assignmentKeys_map_view (tokensOf l1),
    tokensOf_view_congr e1 e2 he, tokensOf_view_congr l1 l2 hl,
    assignmentKeys_map_view, assignmentKeys_map_view]

theorem mark_view_congr (tpl e1 e2 l1 l2 : List Char)
    (he : viewOf e1 = viewOf e2) (hl : viewOf l1 = viewOf l2) :
    markUnknownKeysInExample tpl e1 l1 = markUnknownKeysInExample tpl e2 l2 := by
  unfold markUnknownKeysInExample
  rw [presentKeysOf_view_congr e1 e2 l1 l2 he hl]

/-! ## Substituting the raw value of an assignment line (for C1) -/

theorem fue_extend :
    ∀ (u : List Char) (s d : Bool) (a b v : List Char),
      findUnquotedEquals u s d = some (a, b) →
      findUnquotedEquals (u ++ v) s d = some (a, b ++ v) := by
  intro u
  induction u with
  | nil => intro s d a b v h; simp [findUnquotedEquals] at h
  | cons c rest ih =>
    intro s d a b v h
    rw [findUnquotedEquals] at h
    rw [List.cons_append, findUnquotedEquals]
    split at h
    · rename_i hcond
      rw [if_pos hcond]
      rcases Option.map_eq_some'.1 h with ⟨q, hq, hp⟩
      rw [ih _ _ _ _ v hq]
      simp only [Option.map_some']
      injection hp with hp1 hp2
      rw [← hp1, ← hp2]
    · split at h
      · rename_i hcond1 hcond2
        rw [if_neg hcond1, if_pos hcond2]
        rcases Option.map_eq_some'.1 h with ⟨q, hq, hp⟩
        rw [ih _ _ _ _ v hq]
        simp only [Option.map_some']
        injection hp with hp1 hp2
        rw [← hp1, ← hp2]
      · split at h
        · rename_i hcond1 hcond2 hcond3
          rw [if_neg hcond1, if_neg hcond2, if_pos hcond3]
          have hp := Option.some.inj h
          injection hp with hp1 hp2
          subst hp1; subst hp2
          rfl
        · rename_i hcond1 hcond2 hcond3
          rw [if_neg hcond1, if_neg hcond2, if_neg hcond3]
          rcases Option.map_eq_some'.1 h with ⟨q, hq, hp⟩
          rw [ih _ _ _ _ v hq]
          simp only [Option.map_some']
          injection hp with hp1 hp2
          rw [← hp1, ← hp2]

theorem fue_append_none :
    ∀ (u : List Char) (s d : Bool), findUnquotedEquals u s d = none →
      ∀ v, findUnquotedEquals (u ++ v) s d =
        (findUnquotedEquals v (scanQuoteState u s d).1 (scanQuoteState u s d).2).map
          (fun p => (u ++ p.1, p.2)) := by
  intro u
  induction u with
  | nil =>
    intro s d _ v
    show findUnquotedEquals v s d =
      (findUnquotedEquals v s d).map (fun p => ([] ++ p.1, p.2))
    cases findUnquotedEquals v s d with
    | none => rfl
    | some p => simp
  | cons c rest ih =>
    intro s d h v
    rw [findUnquotedEquals] at h
    rw [List.cons_append, findUnquotedEquals, scanQuoteState]
    split at h
    · rename_i hcond
      rw [if_pos hcond]
      have hr := Option.map_eq_none'.1 h
      rw [ih _ _ hr v, if_pos hcond]
      cases findUnquotedEquals v (scanQuoteState rest (!s) d).1 (scanQuoteState rest (!s) d).2 <;>
        simp
    · split at h
      · rename_i hcond1 hcond2
        rw [if_neg hcond1, if_pos hcond2]
        have hr := Option.map_eq_none'.1 h
        rw [ih _ _ hr v, if_neg hcond1, if_pos hcond2]
        cases findUnquotedEquals v (scanQuoteState rest s (!d)).1 (scanQuoteState rest s (!d)).2 <;>
          simp
      · split at h
        · simp at h
        · rename_i hcond1 hcond2 hcond3
          rw [if_neg hcond1, if_neg hcond2, if_neg hcond3]
          have hr := Option.map_eq_none'.1 h
          rw [ih _ _ hr v, if_neg hcond1, if_neg hcond2]
          cases findUnquotedEquals v (scanQuoteState rest s d).1 (scanQuoteState rest s d).2 <;>
            simp

theorem fue_eq_head_quoted (t : List Char) (s d : Bool) (hsd : s = true ∨ d = true)
    (q : List Char × List Char) (h : findUnquotedEquals ('=' :: t) s d = some q) :
    q.1 ≠ [] := by
  rw [findUnquotedEquals] at h
  rw [if_neg (by simp), if_neg (by simp)] at h
  rw [if_neg ?_] at h
  · rcases Option.map_eq_some'.1 h with ⟨p, hp, hpq⟩
    rw [← hpq]
    simp
  · rcases hsd with h1 | h1 <;> simp [h1]

theorem fue_some_decompose (u t : List Char) (s d : Bool)
    (h : findUnquotedEquals (u ++ '=' :: t) s d = some (u, t)) :
    findUnquotedEquals u s d = none ∧ scanQuoteState u s d = (false, false) := by
  cases hu : findUnquotedEquals u s d with
  | some p =>
    exfalso
    have := fue_extend u s d p.1 p.2 ('=' :: t) (by rw [hu])
    rw [h] at this
    have hp := Option.some.inj this
    injection hp with hp1 hp2
    have hlen := congrArg List.length hp2
    simp only [List.length_append, List.length_cons] at hlen
    omega
  | none =>
    refine ⟨rfl, ?_⟩
    have heq := fue_append_none u s d hu ('=' :: t)
    rw [h] at heq
    obtain ⟨q, hq, hpq⟩ := Option.map_eq_some'.1 heq.symm
    have hq1 : q.1 = [] := by
      injection hpq with hp1 hp2
      have : u ++ q.1 = u ++ [] := by rw [hp1, List.append_nil]
      exact List.append_cancel_left this
    rcases hscan : scanQuoteState u s d with ⟨s1, d1⟩
    rw [hscan] at hq
    cases s1
    · cases d1
      · rfl
      · exact absurd hq1 (fue_eq_head_quoted t false true (Or.inr rfl) q hq)
    · exact absurd hq1 (fue_eq_head_quoted t true d1 (Or.inl rfl) q hq)

theorem fue_eval_eq (t : List Char) :
    findUnquotedEquals ('=' :: t) false false = some ([], t) := by
  rfl

theorem append_cancel_right_expl (as bs cs : List Char) (h : as ++ bs = cs ++ bs) :
    as = cs :=
  List.append_cancel_right h

theorem fue_recompose (u x : List Char) (s d : Bool)
    (h1 : findUnquotedEquals u s d = none)
    (h2 : scanQuoteState u s d = (false, false)) :
    findUnquotedEquals (u ++ '=' :: x) s d = some (u, x) := by
  rw [fue_append_none u s d h1 ('=' :: x), h2, fue_eval_eq]
  simp

theorem parseAssignment_inv (l : List Char) (a : Assignment)
    (h : parseAssignment l = some a) :
    ∃ rk, a.key = jsTrim rk ∧
      findUnquotedEquals (stripExportPrefix l) false false = some (rk, a.rawValue) := by
  simp only [parseAssignment] at h
  cases hf : findUnquotedEquals (stripExportPrefix l) false false with
  | none => rw [hf] at h; exact absurd h (by simp)
  | some p =>
    rw [hf] at h
    have h' := Option.some.inj h
    subst h'
    exact ⟨p.1, rfl, rfl⟩

theorem dropWhile_append_of_ne_nil {p : Char → Bool} (u v : List Char)
    (h : u.dropWhile p ≠ []) : (u ++ v).dropWhile p = u.dropWhile p ++ v := by
  rw [List.dropWhile_append, if_neg (by simpa using h)]

theorem dropWhile_append_of_all {p : Char → Bool} (u v : List Char)
    (h : u.all p = true) : (u ++ v).dropWhile p = v.dropWhile p := by
  induction u with
  | nil => rfl
  | cons c u' ih =>
    simp only [List.all_cons, Bool.and_eq_true] at h
    rw [List.cons_append, List.dropWhile_cons, if_pos h.1]
    exact ih h.2

theorem dropWhile_cons_of_neg {p : Char → Bool} (c : Char) (l : List Char)
    (h : p c = false) : (c :: l).dropWhile p = c :: l := by
  rw [List.dropWhile_cons, if_neg (by simp [h])]

theorem dropWhile_ne_nil_of_mem {p : Char → Bool} {u : List Char} {d : Char}
    (hd : d ∈ u) (hp : p d = false) : u.dropWhile p ≠ [] := by
  intro h
  rw [List.dropWhile_eq_nil_iff] at h
  rw [h d hd] at hp
  exact absurd hp (by simp)

theorem head_dropWhile_cons {p : Char → Bool} {u : List Char} {d : Char}
    {ds : List Char} (h : u.dropWhile p = d :: ds) : p d = false := by
  induction u with
  | nil => simp [List.dropWhile_nil] at h
  | cons c u' ih =>
    rw [List.dropWhile_cons] at h
    by_cases hc : p c = true
    · rw [if_pos hc] at h
      exact ih h
    · rw [if_neg hc] at h
      injection h with h1 h2
      rw [← h1]
      simpa using hc

theorem mem_dropWhile_of_mem_not {p : Char → Bool} {u : List Char} {d : Char}
    (hd : d ∈ u) (hp : p d = false) : d ∈ u.dropWhile p := by
  have := List.takeWhile_append_dropWhile p u
  rw [← this] at hd
  rcases List.mem_append.1 hd with h | h
  · exfalso
    have := List.all_eq_true.1 (@List.all_takeWhile _ p u) d h
    rw [this] at hp
    exact absurd hp (by simp)
  · exact h

/-- Case analysis of `stripExportPrefix`: either it is the identity on the
line, or the line decomposes as whitespace, `export`, one whitespace
character, more whitespace, and the stripped remainder (whose first
character, if any, is not whitespace). -/
theorem stripExportPrefix_cases (l : List Char) :
    stripExportPrefix l = l ∨
    ∃ ws1 c ws2, ws1.all isJsSpace = true ∧ isJsSpace c = true ∧
      ws2.all isJsSpace = true ∧
      l = ws1 ++ exportWord ++ c :: ws2 ++ stripExportPrefix l ∧
      ∀ d ds, stripExportPrefix l = d :: ds → isJsSpace d = false := by
  by_cases h1 : (l.dropWhile isJsSpace).take 6 = exportWord
  · cases h2 : (l.dropWhile isJsSpace).drop 6 with
    | nil =>
      left
      unfold stripExportPrefix
      dsimp only
      rw [if_pos h1, h2]
    | cons c r =>
      by_cases h3 : isJsSpace c = true
      · right
        have hstrip : stripExportPrefix l = r.dropWhile isJsSpace := by
          unfold stripExportPrefix
          dsimp only
          rw [if_pos h1, h2]
          simp [h3]
        refine ⟨l.takeWhile isJsSpace, c, r.takeWhile isJsSpace,
          List.all_takeWhile, h3, List.all_takeWhile, ?_, ?_⟩
        · rw [hstrip]
          conv_lhs => rw [← List.takeWhile_append_dropWhile isJsSpace l,
            ← List.take_append_drop 6 (l.dropWhile isJsSpace), h1, h2]
          simp [List.append_assoc, List.takeWhile_append_dropWhile]
        · intro d ds hd
          rw [hstrip] at hd
          exact head_dropWhile_cons hd
      · left
        unfold stripExportPrefix
        dsimp only
        rw [if_pos h1, h2]
        simp [h3]
  · left
    unfold stripExportPrefix
    dsimp only
    rw [if_neg h1]

/-- Length of `stripExportPrefix` never exceeds the line length. -/
theorem length_dropWhile_le (p : Char → Bool) (u : List Char) :
    (u.dropWhile p).length ≤ u.length := by
  induction u with
  | nil => simp
  | cons c u' ih =>
    rw [List.dropWhile_cons]
    by_cases hc : p c = true
    · rw [if_pos hc]
      simp only [List.length_cons]
      omega
    · rw [if_neg hc]

/-- No-strip stability: if the export strip leaves `K ++ "=" ++ val`
unchanged, it also leaves `K ++ "=" ++ x` unchanged for any other value
text `x`. -/
theorem strip_nostrip_subst (K val x : List Char)
    (h : stripExportPrefix ((K ++ ['=']) ++ val) = (K ++ ['=']) ++ val) :
    stripExportPrefix ((K ++ ['=']) ++ x) = (K ++ ['=']) ++ x := by
  have hmem : '=' ∈ K ++ ['='] := by simp
  have hAne : (K ++ ['=']).dropWhile isJsSpace ≠ [] :=
    dropWhile_ne_nil_of_mem hmem (by decide)
  have hmemA : '=' ∈ (K ++ ['=']).dropWhile isJsSpace :=
    mem_dropWhile_of_mem_not hmem (by decide)
  have hdropP : ∀ y : List Char,
      ((K ++ ['=']) ++ y).dropWhile isJsSpace =
        (K ++ ['=']).dropWhile isJsSpace ++ y :=
    fun y => dropWhile_append_of_ne_nil _ _ hAne
  set A := (K ++ ['=']).dropWhile isJsSpace with hA
  by_cases h6 : 6 ≤ A.length
  · have htake_eq : ∀ y : List Char, (A ++ y).take 6 = A.take 6 := fun y => by
      rw [List.take_append_eq_append_take, Nat.sub_eq_zero_of_le h6, List.take_zero,
        List.append_nil]
    have hdrop_eq : ∀ y : List Char, (A ++ y).drop 6 = A.drop 6 ++ y := fun y => by
      rw [List.drop_append_eq_append_drop, Nat.sub_eq_zero_of_le h6, List.drop_zero]
    by_cases hexp : A.take 6 = exportWord
    · have h7 : 7 ≤ A.length := by
        rcases Nat.lt_or_ge A.length 7 with h7 | h7
        · exfalso
          have hlen6 : A.length = 6 := by omega
          have hAe : A = exportWord := by
            rw [← hexp]
            exact (List.take_of_length_le (by omega)).symm
          rw [hAe] at hmemA
          exact absurd hmemA (by decide)
        · exact h7
      cases hd6 : A.drop 6 with
      | nil =>
        exfalso
        have := congrArg List.length hd6
        simp only [List.length_drop, List.length_nil] at this
        omega
      | cons c r' =>
        have hcns : isJsSpace c = false := by
          by_cases hcs : isJsSpace c = true
          · exfalso
            have hstripval : stripExportPrefix ((K ++ ['=']) ++ val) =
                (r' ++ val).dropWhile isJsSpace := by
              unfold stripExportPrefix
              dsimp only
              rw [hdropP val, if_pos (by rw [htake_eq val]; exact hexp),
                hdrop_eq val, hd6, List.cons_append]
              simp [hcs]
            rw [hstripval] at h
            have hlen := congrArg List.length h
            have hle := length_dropWhile_le isJsSpace (r' ++ val)
            have hAlen : A.length = 6 + (1 + r'.length) := by
              have := congrArg List.length (List.take_append_drop 6 A)
              rw [hd6] at this
              simp only [List.length_append, List.length_take, List.length_cons] at this
              omega
            simp only [List.length_append, List.length_cons, List.length_nil] at hlen hle
            have hKA : A.length ≤ (K ++ ['=']).length := length_dropWhile_le _ _
            simp only [List.length_append, List.length_cons, List.length_nil] at hKA
            omega
          · simpa using hcs
        unfold stripExportPrefix
        dsimp only
        rw [hdropP x, if_pos (by rw [htake_eq x]; exact hexp),
          hdrop_eq x, hd6, List.cons_append]
        simp [hcns]
    · unfold stripExportPrefix
      dsimp only
      rw [hdropP x, if_neg (by rw [htake_eq x]; exact hexp)]
  · have hne : ¬ ((A ++ x).take 6 = exportWord) := by
      intro he
      have hmemtake : '=' ∈ (A ++ x).take 6 := by
        rw [List.take_append_eq_append_take]
        have hAtake : A.take 6 = A := List.take_of_length_le (by omega)
        rw [hAtake]
        exact List.mem_append_left _ hmemA
      rw [he] at hmemtake
      exact absurd hmemtake (by decide)
    unfold stripExportPrefix
    dsimp only
    rw [hdropP x, if_neg hne]

/-- Strip stability in the export case: the strip removes exactly the same
prefix whatever the text after the first unquoted `=` is. -/
theorem strip_strip_subst (ws1 : List Char) (c : Char) (ws2 K x : List Char)
    (h1 : ws1.all isJsSpace = true) (hc : isJsSpace c = true)
    (h2 : ws2.all isJsSpace = true)
    (hK : ∀ d ds, K = d :: ds → isJsSpace d = false) :
    stripExportPrefix (ws1 ++ exportWord ++ c :: ws2 ++ (K ++ '=' :: x)) =
      K ++ '=' :: x := by
  have hdrop : (ws1 ++ exportWord ++ c :: ws2 ++ (K ++ '=' :: x)).dropWhile isJsSpace =
      exportWord ++ (c :: (ws2 ++ (K ++ '=' :: x))) := by
    rw [show ws1 ++ exportWord ++ c :: ws2 ++ (K ++ '=' :: x) =
      ws1 ++ (exportWord ++ (c :: (ws2 ++ (K ++ '=' :: x)))) from by
        simp [List.append_assoc]]
    rw [dropWhile_append_of_all _ _ h1]
    exact dropWhile_cons_of_neg 'e' _ (by decide)
  have hdropK : (K ++ '=' :: x).dropWhile isJsSpace = K ++ '=' :: x := by
    cases hKc : K with
    | nil => exact dropWhile_cons_of_neg '=' x (by decide)
    | cons d ds =>
      rw [List.cons_append]
      exact dropWhile_cons_of_neg d _ (hK d ds hKc)
  unfold stripExportPrefix
  dsimp only
  rw [hdrop]
  rw [List.take_left' (by decide), if_pos rfl, List.drop_left' (by decide)]
  show (if isJsSpace c = true then
      List.dropWhile isJsSpace (ws2 ++ (K ++ '=' :: x))
    else ws1 ++ exportWord ++ c :: ws2 ++ (K ++ '=' :: x)) = K ++ '=' :: x
  rw [if_pos hc, dropWhile_append_of_all _ _ h2, hdropK]

/-- The comment test only looks at the prefix up to the first non-whitespace
character. -/
theorem isCommentLine_append_congr (u y z : List Char)
    (hu : ∃ d, d ∈ u ∧ isJsSpace d = false) :
    isCommentLine (u ++ y) = isCommentLine (u ++ z) := by
  induction u with
  | nil =>
    obtain ⟨d, hd, _⟩ := hu
    exact absurd hd (List.not_mem_nil d)
  | cons c u' ih =>
    rw [List.cons_append, List.cons_append, isCommentLine, isCommentLine]
    by_cases hc : c = '#'
    · simp [hc]
    · simp only [if_neg hc]
      by_cases hw : isJsSpace c = true
      · rw [if_pos hw, if_pos hw]
        apply ih
        obtain ⟨d, hd, hdw⟩ := hu
        rcases List.mem_cons.1 hd with rfl | hd
        · rw [hw] at hdw; exact absurd hdw (by simp)
        · exact ⟨d, hd, hdw⟩
      · rw [if_neg hw, if_neg hw]

/-- Inversion of `classifyLine` at an assignment token. -/
theorem classifyLine_assignment_inv (l r k v : List Char)
    (h : classifyLine l = .assignment r k v) :
    isBlankLine l = false ∧ isCommentLine l = false ∧
      parseAssignment l = some ⟨k, v⟩ ∧ k.isEmpty = false := by
  unfold classifyLine at h
  split at h
  · exact absurd h (by simp)
  · split at h
    · exact absurd h (by simp)
    · rename_i hb hcm
      split at h
      · rename_i a hp
        split at h
        · exact absurd h (by simp)
        · rename_i hk
          injection h with h1 h2 h3
          subst h2; subst h3
          exact ⟨by simpa using hb, by simpa using hcm, hp, by simpa using hk⟩
      · exact absurd h (by simp)

/-- Replacing the raw value of an assignment line: the line keeps its
classification and key, and gets the new raw value. -/
theorem classifyLine_subst (P val x k : List Char)
    (h : classifyLine (P ++ val) = .assignment (P ++ val) k val) :
    classifyLine (P ++ x) = .assignment (P ++ x) k x := by
  obtain ⟨hblank, hcomm, hparse, hkey⟩ := classifyLine_assignment_inv _ _ _ _ h
  obtain ⟨rk, hrk, hfind⟩ := parseAssignment_inv _ _ hparse
  simp only at hrk hfind
  -- Decompose the strip behaviour of the original line.
  have hstripdec := stripExportPrefix_cases (P ++ val)
  -- In both cases we produce the stripped form of the substituted line and
  -- the parse result.
  have hparse' : parseAssignment (P ++ x) = some ⟨k, x⟩ := by
    rcases hstripdec with hid | ⟨ws1, c, ws2, hws1, hc, hws2, hdec, hhead⟩
    · -- no strip: P ++ val = rk ++ '=' :: val and P = rk ++ ['=']
      rw [hid] at hfind
      have hPval : P ++ val = rk ++ '=' :: val := findUnquotedEquals_split _ _ _ _ hfind
      have hP : P = rk ++ ['='] := by
        apply append_cancel_right_expl _ val _
        rw [hPval]
        simp
      have hfue := fue_some_decompose rk val false false (by rw [← hPval]; exact hfind)
      have hstrip' : stripExportPrefix ((rk ++ ['=']) ++ x) = (rk ++ ['=']) ++ x := by
        apply strip_nostrip_subst rk val x
        rw [← hP, hid]
      unfold parseAssignment
      dsimp only
      rw [hP, hstrip']
      rw [show (rk ++ ['=']) ++ x = rk ++ '=' :: x from by simp]
      rw [fue_recompose rk x false false hfue.1 hfue.2, hrk]
    · -- strip case: P ++ val = ws1 ++ export ++ c :: ws2 ++ w, w = rk ++ '=' :: val
      have hw : stripExportPrefix (P ++ val) = rk ++ '=' :: val :=
        findUnquotedEquals_split _ _ _ _ hfind ▸ rfl
      have hfue : findUnquotedEquals rk false false = none ∧
          scanQuoteState rk false false = (false, false) := by
        apply fue_some_decompose rk val false false
        rw [← hw]
        exact hfind
      have hP : P = ws1 ++ exportWord ++ c :: ws2 ++ (rk ++ ['=']) := by
        apply append_cancel_right_expl _ val _
        rw [hdec, hw]
        simp [List.append_assoc]
      have hK : ∀ d ds, rk = d :: ds → isJsSpace d = false := by
        intro d ds hdds
        apply hhead d (ds ++ '=' :: val)
        rw [hw, hdds]
        rfl
      have hstrip' : stripExportPrefix (P ++ x) = rk ++ '=' :: x := by
        rw [hP, show (ws1 ++ exportWord ++ c :: ws2 ++ (rk ++ ['='])) ++ x =
          ws1 ++ exportWord ++ c :: ws2 ++ (rk ++ '=' :: x) from by
            simp [List.append_assoc]]
        exact strip_strip_subst ws1 c ws2 rk x hws1 hc hws2 hK
      unfold parseAssignment
      dsimp only
      rw [hstrip', fue_recompose rk x false false hfue.1 hfue.2, hrk]
  -- '=' is an element of P.
  have hmemP : '=' ∈ P := by
    rcases hstripdec with hid | ⟨ws1, c, ws2, hws1, hc, hws2, hdec, hhead⟩
    · rw [hid] at hfind
      have hPval : P ++ val = rk ++ '=' :: val := findUnquotedEquals_split _ _ _ _ hfind
      have hP : P = rk ++ ['='] := by
        apply append_cancel_right_expl _ val _
        rw [hPval]; simp
      rw [hP]; simp
    · have hw : stripExportPrefix (P ++ val) = rk ++ '=' :: val :=
        findUnquotedEquals_split _ _ _ _ hfind ▸ rfl
      have hP : P = ws1 ++ exportWord ++ c :: ws2 ++ (rk ++ ['=']) := by
        apply append_cancel_right_expl _ val _
        rw [hdec, hw]
        simp [List.append_assoc]
      rw [hP]; simp
  -- Classification of the substituted line.
  have hblank' : isBlankLine (P ++ x) = false := by
    unfold isBlankLine
    rw [List.all_append]
    have hPf : P.all isJsSpace = false := by
      cases hall : P.all isJsSpace
      · rfl
      · exfalso
        have := List.all_eq_true.1 hall '=' hmemP
        exact absurd this (by decide)
    simp [hPf]
  have hcomm' : isCommentLine (P ++ x) = false := by
    rw [isCommentLine_append_congr P x val ⟨'=', hmemP, by decide⟩]
    exact hcomm
  unfold classifyLine
  rw [hblank', hcomm', hparse']
  show (if k.isEmpty = true then Token.comment (P ++ x)
    else Token.assignment (P ++ x) k x) = Token.assignment (P ++ x) k x
  rw [if_neg (by simp [hkey])]

/-- C1 (two-run statement): the generated outputs depend on the source
contents only through their token views, which forget every assignment's raw
value (and keep its key); and replacing the raw value text of an assignment
line — the suffix after its first unquoted `=` — with any other value text
leaves the line's classification, and hence its token view, unchanged.
Together: changing only the rawValue of any source assignment leaves the
output of `buildExampleFromScratch`, `appendMissingKeysToExample` and
`markUnknownKeysInExample` unchanged, and no output ever embeds a value
(keys are always emitted as `KEY=`). -/
theorem no_value_leakage :
    ∀ (env1 env2 loc1 loc2 tpl stamp P val x k : List Char),
      viewOf env1 = viewOf env2 → viewOf loc1 = viewOf loc2 →
      classifyLine (P ++ val) = .assignment (P ++ val) k val →
      buildExampleFromScratch env1 loc1 = buildExampleFromScratch env2 loc2 ∧
      appendMissingKeysToExample stamp tpl env1 loc1 =
        appendMissingKeysToExample stamp tpl env2 loc2 ∧
      markUnknownKeysInExample tpl env1 loc1 = markUnknownKeysInExample tpl env2 loc2 ∧
      classifyLine (P ++ x) = .assignment (P ++ x) k x ∧
      tokenView (classifyLine (P ++ x)) = tokenView (classifyLine (P ++ val)) := by
  intro env1 env2 loc1 loc2 tpl stamp P val x k he hl hcl
  refine ⟨build_view_congr _ _ _ _ he hl, append_view_congr _ _ _ _ _ _ he hl,
    mark_view_congr _ _ _ _ _ he hl, classifyLine_subst P val x k hcl, ?_⟩
  rw [classifyLine_subst P val x k hcl, hcl]
  rfl

/-- C1, witness: two `.env` contents differing only in the secret values of
`A` and `B` have equal views and hence equal generated outputs; and the
concrete line `KEY=old` keeps key `KEY` when its value is replaced. -/
theorem no_value_leakage_witness :
    (viewOf "A=secret1\n# db\nB=2\n".toList = viewOf "A=hunter2\n# db\nB=42\n".toList) ∧
    (classifyLine ("KEY=".toList ++ "old".toList) =
      .assignment ("KEY=".toList ++ "old".toList) "KEY".toList "old".toList) ∧
    (buildExampleFromScratch "A=secret1\n# db\nB=2\n".toList [] =
      buildExampleFromScratch "A=hunter2\n# db\nB=42\n".toList []) ∧
    (appendMissingKeysToExample "T".toList "A=\n".toList
        "A=secret1\n# db\nB=2\n".toList [] =
      appendMissingKeysToExample "T".toList "A=\n".toList
        "A=hunter2\n# db\nB=42\n".toList []) ∧
    (classifyLine ("KEY=".toList ++ "new".toList) =
      .assignment ("KEY=".toList ++ "new".toList) "KEY".toList "new".toList) := by
  have h := no_value_leakage "A=secret1\n# db\nB=2\n".toList
    "A=hunter2\n# db\nB=42\n".toList [] [] "A=\n".toList "T".toList
    "KEY=".toList "old".toList "new".toList "KEY".toList
    (by decide) rfl (by decide)
  exact ⟨by decide, by decide, h.1, h.2.1, h.2.2.2.1⟩

end CopyEnvKeys
